import Mathlib

/-!
Verification of the hierarchical step-tree subsystem of the `routines`
repository (`src/utils.py`, `src/expand-node.py`, `src/hallucinate-tree.py`).

The Python dictionaries that represent step nodes are embedded as the
inductive type `SNode` (fields `step`, `uuid`, `children`, each optional,
mirroring presence or absence of the dictionary key).  LLM responses and
parsed JSON data are embedded as the inductive type `Json`.  Python string
operations used by the code (`str.replace`, `str.strip`, `str.split`,
`str.lower`, the regexes of `sanitize_filename`) are modelled character by
character on `List Char`; `json.loads` is modelled by a recursive-descent
parser `json_loads` covering the JSON subset relevant here (null, booleans,
integer numbers, strings with simple escapes, arrays, objects).  Mutation of
caller-visible dictionaries (`expand_node` inserting a `children` key,
`save_tree_to_filesystem` assigning fresh uuids) is made observable by
returning the post-call state of the input alongside the ordinary result.
Uncaught Python exceptions (IndexError on a too-negative list index,
TypeError on comparing a non-integer path element) are modelled as explicit
`error` results.
-/

namespace Routines

/-! ## JSON values (the result type of Python `json.loads`) -/

/-- Embedding of the Python values that `json.loads` can produce for the
data handled by this code base. -/
inductive Json where
  | null
  | bool (b : Bool)
  | num (n : Int)
  | str (s : String)
  | arr (elems : List Json)
  | obj (members : List (String × Json))

/-! ## Character-level models of the Python string operations -/

/-- Whitespace recognised by Python `str.strip()` and by the regex class
`\s` (ASCII range, which is all the inputs considered here use). -/
def isPySpace (c : Char) : Bool :=
  c = ' ' || c = '\t' || c = '\n' || c = '\r' || c = '\x0b' || c = '\x0c'

/-- Fuelled worker for `replaceAll`; the fuel is the length of the string,
which suffices because every step consumes at least one character. -/
def replaceAllGo (pat rep : List Char) : Nat → List Char → List Char
  | _, [] => []
  | 0, s => s
  | Nat.succ n, c :: rest =>
    if pat ≠ [] && pat.isPrefixOf (c :: rest) then
      rep ++ replaceAllGo pat rep n ((c :: rest).drop pat.length)
    else
      c :: replaceAllGo pat rep n rest

/-- Model of Python `s.replace(pat, rep)`: replace every non-overlapping
occurrence of `pat`, scanning left to right. -/
def replaceAll (s pat rep : List Char) : List Char :=
  replaceAllGo pat rep s.length s

/-- Model of Python `s.strip()` (strip leading and trailing whitespace). -/
def pyStrip (s : List Char) : List Char :=
  ((s.dropWhile isPySpace).reverse.dropWhile isPySpace).reverse

/-- Model of Python `s.split(sep)` for a one-character separator. -/
def splitOnChar (sep : Char) : List Char → List (List Char)
  | [] => [[]]
  | c :: rest =>
    if c = sep then [] :: splitOnChar sep rest
    else
      match splitOnChar sep rest with
      | [] => [[c]]
      | l :: ls => (c :: l) :: ls

/-- Model of Python `s.startswith('#')`. -/
def startsWithHash : List Char → Bool
  | '#' :: _ => true
  | _ => false

/-! ## Model of `json.loads`

Recursive-descent parser for the JSON subset produced by the LLM responses
this code handles: `null`, `true`, `false`, integer numbers, strings with
the single-character escapes, arrays and objects.  Python's `json.loads`
raises `json.JSONDecodeError` on invalid input; that outcome is modelled as
`none`. -/

/-- JSON insignificant whitespace (as accepted by Python's `json.loads`). -/
def skipWs : List Char → List Char
  | [] => []
  | c :: rest =>
    if c = ' ' || c = '\t' || c = '\n' || c = '\r' then skipWs rest else c :: rest

/-- Single-character JSON string escapes. -/
def escChar : Char → Option Char
  | '"' => some '"'
  | '\\' => some '\\'
  | '/' => some '/'
  | 'b' => some '\x08'
  | 'f' => some '\x0c'
  | 'n' => some '\n'
  | 'r' => some '\r'
  | 't' => some '\t'
  | _ => none

/-- Parse the body of a JSON string after the opening quote; returns the
decoded characters and the input remaining after the closing quote. -/
def parseStringBody : List Char → Option (List Char × List Char)
  | [] => none
  | '"' :: rest => some ([], rest)
  | '\\' :: e :: rest =>
    match escChar e with
    | some c => (parseStringBody rest).map (fun r => (c :: r.1, r.2))
    | none => none
  | c :: rest => (parseStringBody rest).map (fun r => (c :: r.1, r.2))

/-- Accumulate decimal digits into a natural number. -/
def digitsLoop (acc : Nat) : List Char → Nat × List Char
  | [] => (acc, [])
  | c :: rest =>
    if c.isDigit then digitsLoop (acc * 10 + (c.toNat - '0'.toNat)) rest
    else (acc, c :: rest)

/-- Parse a JSON integer literal (no leading zeros, as in the JSON grammar). -/
def takeDigits1 : List Char → Option (Nat × List Char)
  | [] => none
  | '0' :: rest => some (0, rest)
  | c :: rest =>
    if c.isDigit then some (digitsLoop (c.toNat - '0'.toNat) rest) else none

mutual

/-- Parse one JSON value; fuelled mutual recursion (the fuel passed by
`json_loads` is large enough for any input). -/
def parseValue : Nat → List Char → Option (Json × List Char)
  | 0, _ => none
  | Nat.succ fuel, cs =>
    match skipWs cs with
    | [] => none
    | 'n' :: r => if r.take 3 = ['u', 'l', 'l'] then some (.null, r.drop 3) else none
    | 't' :: r => if r.take 3 = ['r', 'u', 'e'] then some (.bool true, r.drop 3) else none
    | 'f' :: r => if r.take 4 = ['a', 'l', 's', 'e'] then some (.bool false, r.drop 4) else none
    | '"' :: r => (parseStringBody r).map (fun p => (.str ⟨p.1⟩, p.2))
    | '[' :: r =>
      match skipWs r with
      | ']' :: r2 => some (.arr [], r2)
      | _ => (parseElems fuel r).map (fun p => (.arr p.1, p.2))
    | '{' :: r =>
      match skipWs r with
      | '}' :: r2 => some (.obj [], r2)
      | _ => (parseMembers fuel r).map (fun p => (.obj p.1, p.2))
    | '-' :: r =>
      (takeDigits1 r).map (fun p => (.num (-(p.1 : Int)), p.2))
    | c :: r =>
      if c.isDigit then (takeDigits1 (c :: r)).map (fun p => (.num (p.1 : Int), p.2))
      else none

/-- Parse the comma-separated elements of a non-empty JSON array, including
the closing bracket. -/
def parseElems : Nat → List Char → Option (List Json × List Char)
  | 0, _ => none
  | Nat.succ fuel, cs =>
    match parseValue fuel cs with
    | none => none
    | some (v, rest) =>
      match skipWs rest with
      | ',' :: r2 => (parseElems fuel r2).map (fun p => (v :: p.1, p.2))
      | ']' :: r2 => some ([v], r2)
      | _ => none

/-- Parse the members of a non-empty JSON object, including the closing
brace. -/
def parseMembers : Nat → List Char → Option (List (String × Json) × List Char)
  | 0, _ => none
  | Nat.succ fuel, cs =>
    match skipWs cs with
    | '"' :: r =>
      match parseStringBody r with
      | none => none
      | some (k, r2) =>
        match skipWs r2 with
        | ':' :: r3 =>
          match parseValue fuel r3 with
          | none => none
          | some (v, r4) =>
            match skipWs r4 with
            | ',' :: r5 => (parseMembers fuel r5).map (fun p => ((⟨k⟩, v) :: p.1, p.2))
            | '}' :: r5 => some ([(⟨k⟩, v)], r5)
            | _ => none
        | _ => none
    | _ => none

end

/-- Model of Python `json.loads`: parse one JSON document and require that
only whitespace follows it; `none` models `json.JSONDecodeError`. -/
def json_loads (s : String) : Option Json :=
  match parseValue (2 * s.data.length + 2) s.data with
  | some (v, rest) => if skipWs rest = [] then some v else none
  | none => none

/-! ## `utils.clean_llm_json_response` and `utils.parse_llm_json_response` -/

/-- Model of `clean_llm_json_response` (src/utils.py lines 70-74):
`response_text.replace("```json", "").replace("```", "").strip()`. -/
def clean_llm_json_response (response_text : String) : String :=
  ⟨pyStrip (replaceAll (replaceAll response_text.data "```json".data [])
      "```".data [])⟩

/-- One record of the line-by-line fallback of `parse_llm_json_response`:
the stripped line wrapped as `{"step": ...}`, with an empty `children`
array when hierarchical output was requested. -/
def fallbackRecord (include_children : Bool) (line : List Char) : Json :=
  if include_children then
    .obj [("step", .str ⟨line⟩), ("children", .arr [])]
  else
    .obj [("step", .str ⟨line⟩)]

/-- Fallback of `parse_llm_json_response` (src/utils.py lines 88-96): split
the cleaned text on newlines, drop blank lines and lines starting with `#`
after stripping, and wrap each remaining line as a step record. -/
def fallbackRecords (cleaned : String) (include_children : Bool) : List Json :=
  (splitOnChar '\n' cleaned.data).filterMap (fun line =>
    let t := pyStrip line
    if t ≠ [] && !startsWithHash t then some (fallbackRecord include_children t)
    else none)

/-- Model of `parse_llm_json_response` (src/utils.py lines 76-96).  The
`try`/`except json.JSONDecodeError` of the source corresponds to the match
on `json_loads`: a parse failure is caught and answered with the line
fallback, so the function is total (it never raises to its caller). -/
def parse_llm_json_response (response_text : String) (include_children : Bool) : Json :=
  let cleaned := clean_llm_json_response response_text
  match json_loads cleaned with
  | some v => v
  | none => .arr (fallbackRecords cleaned include_children)

/-- The placeholder record substituted by `expand_node` (src/expand-node.py
line 87) when the parsed response is not a list. -/
def placeholderRecord : Json :=
  .obj [("step", .str "No valid substeps could be generated"), ("children", .arr [])]

/-- Model of src/expand-node.py lines 84-87: parse the LLM response with
`include_children := true` and substitute the single placeholder record
exactly when the parse result is not a Python list. -/
def expand_node_substeps (response_text : String) : Json :=
  match parse_llm_json_response response_text true with
  | .arr l => .arr l
  | _ => .arr [placeholderRecord]

/-! ## The step-node tree

A tree node is a Python dictionary; the keys this subsystem reads or writes
are `step`, `uuid` and `children`, each of which may be absent (`none`). -/

/-- Embedding of a step-node dictionary. -/
inductive SNode where
  | mk (step : Option String) (uuid : Option String) (children : Option (List SNode))

/-- The `step` field of a node (`node.get("step")`). -/
def SNode.step : SNode → Option String
  | .mk s _ _ => s

/-- The `uuid` field of a node (`node.get("uuid")`). -/
def SNode.uuid : SNode → Option String
  | .mk _ u _ => u

/-- The `children` field of a node; `none` models an absent `children` key. -/
def SNode.children : SNode → Option (List SNode)
  | .mk _ _ c => c

/-- Replace the `children` field of a node (dictionary key assignment). -/
def SNode.withChildren : SNode → Option (List SNode) → SNode
  | .mk s u _, c => .mk s u c

/-- Default node used as the never-inspected fallback of bounds-checked
list accesses. -/
def dfltNode : SNode := .mk none none none

/-! ## Path addressing (`find_node_by_path`, `update_tree_at_path`) -/

/-- One element of an index path.  `int` is an integer element; `nonInt`
stands for a path element of any non-integer Python type, which
`find_node_by_path` rejects with its `isinstance(index, int)` check. -/
inductive PathElem where
  | int (i : Int)
  | nonInt
deriving DecidableEq

/-- Python list indexing, resolved to a natural position: a negative index
`i` (with `-len ≤ i`) counts from the end of the list.  Callers bounds-check
separately, as Python raises IndexError outside `-len ≤ i < len`. -/
def pyNat (len : Nat) (i : Int) : Nat :=
  if i < 0 then ((len : Int) + i).toNat else i.toNat

/-- Result of `find_node_by_path`: the located node with the realized path,
the `(None, [])` not-found return, or an uncaught IndexError. -/
inductive LookupResult where
  | found (node : SNode) (path : List PathElem)
  | notFound
  | error

/-- Worker of `find_node_by_path` (src/expand-node.py lines 16-25): walk the
path, returning `notFound` when an element is not an integer, the current
node has no `children` key, or the index is `≥ len(children)`; descend by
Python indexing otherwise (raising IndexError for an index below `-len`). -/
def findGo (current : SNode) (path : List PathElem) (acc : List PathElem) : LookupResult :=
  match path with
  | [] => .found current acc
  | .nonInt :: _ => .notFound
  | .int i :: rest =>
    match current.children with
    | none => .notFound
    | some cs =>
      if (cs.length : Int) ≤ i then .notFound
      else if i < -(cs.length : Int) then .error
      else findGo (cs.getD (pyNat cs.length i) dfltNode) rest (acc ++ [.int i])

/-- Model of `find_node_by_path` (src/expand-node.py lines 11-25). -/
def find_node_by_path (tree : SNode) (path : List PathElem) : LookupResult :=
  findGo tree path []

/-- Result of the navigate-and-assign part of `update_tree_at_path`:
a rebuilt subtree, the invalid-path outcome (the caller then returns the
original tree), or an uncaught exception (TypeError on a non-integer
element, IndexError on an index below `-len`). -/
inductive UpdateGoResult where
  | ok (tree : SNode)
  | invalid
  | error

/-- Result of `update_tree_at_path`: the updated (or original) tree, or an
uncaught exception. -/
inductive UpdateResult where
  | ok (tree : SNode)
  | error

/-- Worker of `update_tree_at_path` (src/expand-node.py lines 110-126):
navigate to the parent of the target with the same `children`/bounds checks
as the source loop (a failed check means "path invalid"), then assign
`children[path[-1]] = new_node` under the same checks.  A non-integer path
element raises TypeError at the `index >= len(...)` comparison, since the
source has no `isinstance` check here. -/
def updateGo (current : SNode) (path : List PathElem) (new_node : SNode) : UpdateGoResult :=
  match path with
  | [] => .ok new_node
  | .nonInt :: _ => .error
  | .int i :: rest =>
    match current.children with
    | none => .invalid
    | some cs =>
      if (cs.length : Int) ≤ i then .invalid
      else if i < -(cs.length : Int) then .error
      else
        match rest with
        | [] => .ok (current.withChildren (some (cs.set (pyNat cs.length i) new_node)))
        | _ :: _ =>
          match updateGo (cs.getD (pyNat cs.length i) dfltNode) rest new_node with
          | .ok c2 => .ok (current.withChildren (some (cs.set (pyNat cs.length i) c2)))
          | .invalid => .invalid
          | .error => .error

/-- Model of `update_tree_at_path` (src/expand-node.py lines 101-126).  The
source deep-copies the tree (`json.loads(json.dumps(tree))`) and mutates
the copy; with value semantics the deep copy is the identity, and the
original tree value is never modified by construction.  An invalid path
makes the source return the original tree object unchanged. -/
def update_tree_at_path (tree : SNode) (path : List PathElem) (new_node : SNode) :
    UpdateResult :=
  match path with
  | [] => .ok new_node
  | _ :: _ =>
    match updateGo tree path new_node with
    | .ok t => .ok t
    | .invalid => .ok tree
    | .error => .error

/-! ## Text search (`find_node_by_step_text`) -/

mutual

/-- Model of `find_node_by_step_text` (src/expand-node.py lines 27-42):
check the node itself, then recurse into the children left to right with
the extended path; an absent `children` key is treated as no children. -/
def find_node_by_step_text (tree : SNode) (step_text : String) (path : List Int) :
    Option (SNode × List Int) :=
  match tree with
  | .mk s u c =>
    if s = some step_text then some (.mk s u c, path)
    else
      match c with
      | none => none
      | some cs => findTextInChildren cs step_text path 0

/-- The child loop of `find_node_by_step_text`, with the running child
index. -/
def findTextInChildren (cs : List SNode) (step_text : String) (path : List Int) (i : Nat) :
    Option (SNode × List Int) :=
  match cs with
  | [] => none
  | child :: rest =>
    match find_node_by_step_text child step_text (path ++ [(i : Int)]) with
    | some r => some r
    | none => findTextInChildren rest step_text path (i + 1)

end

mutual

/-- The pre-order enumeration of a tree: each node paired with its path,
parent before children, children left to right.  This is the specification
yardstick the search of `find_node_by_step_text` is compared against. -/
def preorder (tree : SNode) (path : List Int) : List (SNode × List Int) :=
  match tree with
  | .mk s u c =>
    (.mk s u c, path) ::
      (match c with
       | none => []
       | some cs => preorderChildren cs path 0)

/-- Pre-order enumeration of a child list starting at child index `i`. -/
def preorderChildren (cs : List SNode) (path : List Int) (i : Nat) :
    List (SNode × List Int) :=
  match cs with
  | [] => []
  | child :: rest => preorder child (path ++ [(i : Int)]) ++ preorderChildren rest path (i + 1)

end

/-! ## Node expansion (`expand_node`) -/

/-- Model of `expand_node` (src/expand-node.py lines 54-99) with the LLM
boundary abstracted: `substeps` is the parsed substep list (lines 81-87).
The first component of the result is the state of the caller's `node`
dictionary after the call: lines 60-61 execute `node["children"] = []` when
the key is absent, mutating the input in place.  The second component is
the returned `expanded_node = {**node}` with its `children` merged per
lines 93-97. -/
def expand_node (node : SNode) (substeps : List SNode) (replace_existing : Bool) :
    SNode × SNode :=
  let node1 :=
    match node.children with
    | none => node.withChildren (some [])
    | some _ => node
  let expanded :=
    match replace_existing, node1.children with
    | true, _ => node1.withChildren (some substeps)
    | false, none => node1.withChildren (some substeps)
    | false, some [] => node1.withChildren (some substeps)
    | false, some (c :: cs) => node1.withChildren (some ((c :: cs) ++ substeps))
  (node1, expanded)

/-! ## Directory serialization (`sanitize_filename`, `save_tree_to_filesystem`) -/

/-- The regex class `\w` of `sanitize_filename` (ASCII range). -/
def pyIsWordChar (c : Char) : Bool := c.isAlphanum || c = '_'

/-- A character matched by the class `[\s-]` of `sanitize_filename`. -/
def isSpaceHyphen (c : Char) : Bool := isPySpace c || c = '-'

/-- Model of `re.sub(r'[\s-]+', '_', s)`: replace every maximal run of
whitespace/hyphen characters with a single underscore.  The flag records
whether the scanner is inside such a run. -/
def collapseGo (inRun : Bool) : List Char → List Char
  | [] => []
  | c :: rest =>
    if isSpaceHyphen c then
      if inRun then collapseGo true rest else '_' :: collapseGo true rest
    else c :: collapseGo false rest

/-- Model of `sanitize_filename` (src/hallucinate-tree.py lines 12-20):
lowercase, drop characters outside `[\w\s-]`, collapse whitespace/hyphen
runs to single underscores, truncate to 40 characters. -/
def sanitize_filename (name : String) : String :=
  let lowered := name.data.map Char.toLower
  let stripped := lowered.filter (fun c => pyIsWordChar c || isPySpace c || c = '-')
  ⟨(collapseGo false stripped).take 40⟩

/-- Model of `uuid.split('-')[0]` (src/hallucinate-tree.py line 53): the
first dash-separated segment of an identifier. -/
def shortUuid (u : String) : String :=
  ⟨(splitOnChar '-' u.data).headD u.data⟩

/-- The directory name chosen for a child node (src/hallucinate-tree.py
lines 45-61): sanitized label (or the generic `step` token when the
sanitized label is empty) followed by the shortened identifier; when that
name already exists among `taken` (the sibling directories created so far),
fall back to appending the full identifier. -/
def dirNameFor (label : String) (u : String) (taken : List String) : String :=
  let s := sanitize_filename label
  let base := if s = "" then "step" else s
  let name0 := base ++ "_" ++ shortUuid u
  if name0 ∈ taken then base ++ "_" ++ u else name0

/-- A serialized directory: the `node.json` metadata (`step` and `uuid`)
plus the child subdirectories in creation order.  A real directory listing
does not preserve creation order, which is why deserialization below reads
entries in name order. -/
inductive Dir where
  | mk (step : String) (uuid : String) (entries : List (String × Dir))

/-- The uuid-ensuring step of `save_tree_to_filesystem` (lines 27-29 for the
root, 41-43 for each child): keep an existing uuid, otherwise draw a fresh
one from the generator, advancing its counter.  The assignment mutates the
caller's node; the post-call node states returned below make that
visible. -/
def ensureUuid (ou : Option String) (ctr : Nat) (gen : Nat → String) : String × Nat :=
  match ou with
  | some u0 => (u0, ctr)
  | none => (gen ctr, ctr + 1)

mutual

/-- Core of `save_tree_to_filesystem` (src/hallucinate-tree.py lines 22-65)
for a node whose `uuid` has already been ensured to be `u`.  Returns the
post-call state of the node (the source mutates the caller's dictionaries
by assigning generated uuids), the directory written, and the state of the
uuid generator counter.  `none` models the KeyError raised when a node has
no `step` key. -/
def saveCore : SNode → String → Nat → (Nat → String) → Option (SNode × Dir × Nat)
  | .mk st _ c, u, ctr, gen =>
    match st with
    | none => none
    | some stepText =>
      match c with
      | none => some (.mk (some stepText) (some u) none, .mk stepText u [], ctr)
      | some cs =>
        (saveChildren cs ctr gen []).map fun r =>
          (.mk (some stepText) (some u) (some r.1), .mk stepText u r.2.1, r.2.2)

/-- The child loop of `save_tree_to_filesystem` (lines 40-63): ensure the
child has a uuid (an in-place mutation of the caller's tree when absent),
compute its directory name against the sibling names created so far, and
recurse.  The source accesses `child["step"]` (possible KeyError) after the
uuid assignment; as the KeyError outcome discards the result either way,
the pure embedding checks the `step` key first. -/
def saveChildren : List SNode → Nat → (Nat → String) → List String →
    Option (List SNode × List (String × Dir) × Nat)
  | [], ctr, _, _ => some ([], [], ctr)
  | child :: rest, ctr, gen, taken =>
    match child.step with
    | none => none
    | some cstep =>
      let p := ensureUuid child.uuid ctr gen
      let name := dirNameFor cstep p.1 taken
      (saveCore child p.1 p.2 gen).bind fun r =>
        (saveChildren rest r.2.2 gen (name :: taken)).map fun r2 =>
          (r.1 :: r2.1, (name, r.2.1) :: r2.2.1, r2.2.2)

end

/-- Model of `save_tree_to_filesystem` (src/hallucinate-tree.py lines
22-65).  `gen` is the uuid generator (`uuid.uuid4()` in the source) and
`ctr` its deterministic supply counter; lines 27-29 assign a generated uuid
to the root before writing when it has none.  `saveCore` receives the node
together with its ensured uuid, mirroring how the source reads
`tree["uuid"]` only after guaranteeing the key exists. -/
def save_tree_to_filesystem (tree : SNode) (ctr : Nat) (gen : Nat → String) :
    Option (SNode × Dir × Nat) :=
  saveCore tree (ensureUuid tree.uuid ctr gen).1 (ensureUuid tree.uuid ctr gen).2 gen

/-- Lexicographic (strict) order on character lists, by character code:
the order in which common filesystems present directory listings. -/
def charListLt : List Char → List Char → Bool
  | [], [] => false
  | [], _ :: _ => true
  | _ :: _, [] => false
  | a :: as, b :: bs => if a = b then charListLt as bs else decide (a < b)

/-- Lexicographic (non-strict) order on character lists. -/
def charListLe : List Char → List Char → Bool
  | [], _ => true
  | _ :: _, [] => false
  | a :: as, b :: bs => if a = b then charListLe as bs else decide (a < b)

/-- Strict name order on strings. -/
def strLtB (a b : String) : Bool := charListLt a.data b.data

/-- Insert a directory entry into a name-ordered listing. -/
def insertEntry (e : String × Dir) : List (String × Dir) → List (String × Dir)
  | [] => [e]
  | f :: rest =>
    if charListLe e.1.data f.1.data then e :: f :: rest else f :: insertEntry e rest

/-- Sort a directory listing by entry name (insertion sort). -/
def sortEntries : List (String × Dir) → List (String × Dir)
  | [] => []
  | e :: rest => insertEntry e (sortEntries rest)

mutual

/-- Canonical on-disk view of a saved directory: since a filesystem does
not preserve creation order, the entries of every directory are put in
lexicographic name order. -/
def sortDir : Dir → Dir
  | .mk st u entries => .mk st u (sortEntries (sortDirEntries entries))

/-- Recursively canonicalize each entry of a directory listing. -/
def sortDirEntries : List (String × Dir) → List (String × Dir)
  | [] => []
  | (n, d) :: rest => (n, sortDir d) :: sortDirEntries rest

end

mutual

/-- Modelled from the spec: the repository has no deserializer for the
directory layout, so the reconstruction procedure of section 4.4 —
"recursively reading `node.json` files and their immediate subdirectories" —
is modelled here.  Each directory becomes a node whose `step` and `uuid`
come from its `node.json` and whose children are the recursively loaded
subdirectories in the order the directory listing presents them. -/
def loadRaw : Dir → SNode
  | .mk st u entries => .mk (some st) (some u) (some (loadRawEntries entries))

/-- Load each subdirectory of a listing in order. -/
def loadRawEntries : List (String × Dir) → List SNode
  | [] => []
  | (_, d) :: rest => loadRaw d :: loadRawEntries rest

end

/-- Modelled from the spec: deserialization of a saved directory tree.
Directory entries carry no order on disk, so traversal reads them in
lexicographic name order (the canonical listing order). -/
def load_tree_from_filesystem (d : Dir) : SNode :=
  loadRaw (sortDir d)

/-- The directory name a child receives in the collision-free case (the
computed name is not among the sibling names already taken). -/
def childName (c : SNode) : String :=
  dirNameFor (c.step.getD "") (c.uuid.getD "") []

/-- Well-formed tree with sorted sibling directory names: every node has a
`step`, a `uuid` and a present (possibly empty) `children` list, and the
directory names computed for each sibling list are strictly increasing.
Such trees are exactly the ones whose children order survives name-ordered
directory traversal. -/
inductive WFSorted : SNode → Prop where
  | mk (st u : String) (cs : List SNode) :
      (∀ c ∈ cs, WFSorted c) →
      List.Chain' (fun a b => strLtB (childName a) (childName b) = true) cs →
      WFSorted (.mk (some st) (some u) (some cs))

/-- Relation between a tree and its state after
`save_tree_to_filesystem`: every `step` and every present `uuid` is
unchanged, children keep their shape, and every node that lacked a `uuid`
now carries one freshly produced by the generator. -/
inductive FillsIds (gen : Nat → String) : SNode → SNode → Prop where
  | noChildren (s ou : Option String) (u' : String) :
      (∀ u0, ou = some u0 → u' = u0) →
      (ou = none → ∃ k, u' = gen k) →
      FillsIds gen (.mk s ou none) (.mk s (some u') none)
  | withChildren (s ou : Option String) (u' : String) (cs cs' : List SNode) :
      (∀ u0, ou = some u0 → u' = u0) →
      (ou = none → ∃ k, u' = gen k) →
      List.Forall₂ (FillsIds gen) cs cs' →
      FillsIds gen (.mk s ou (some cs)) (.mk s (some u') (some cs'))

/-- The matching predicate of `find_node_by_step_text` as a Boolean on
enumerated (node, path) pairs: exact, case-sensitive label equality. -/
def stepMatches (target : String) (e : SNode × List Int) : Bool :=
  e.1.step == some target

/-- The exact conditions under which `find_node_by_path` answers
`(None, [])`: somewhere along the walk the path element is not an integer,
the current node has no `children` key, or the integer index is at or above
`len(children)`; descending through an in-bounds index (negative indices
included) preserves rejection of the remaining path.  Paths that raise
IndexError (index below `-len`) are not rejections. -/
inductive Rejects : SNode → List PathElem → Prop where
  | nonIntElem (tree : SNode) (rest : List PathElem) : Rejects tree (.nonInt :: rest)
  | missingChildren (s u : Option String) (i : Int) (rest : List PathElem) :
      Rejects (.mk s u none) (.int i :: rest)
  | indexTooLarge (s u : Option String) (cs : List SNode) (i : Int) (rest : List PathElem) :
      (cs.length : Int) ≤ i → Rejects (.mk s u (some cs)) (.int i :: rest)
  | descend (s u : Option String) (cs : List SNode) (i : Int) (rest : List PathElem) :
      ¬((cs.length : Int) ≤ i) → ¬(i < -(cs.length : Int)) →
      Rejects (cs.getD (pyNat cs.length i) dfltNode) rest →
      Rejects (.mk s u (some cs)) (.int i :: rest)

/-! ## Helper lemmas -/

/-- Strong induction on the size of a step node; the workhorse for proofs
about the nested recursive functions above. -/
theorem SNode.strongInduction {P : SNode → Prop}
    (ind : ∀ t, (∀ c : SNode, sizeOf c < sizeOf t → P c) → P t) : ∀ t, P t := by
  have H : ∀ (n : Nat) (t : SNode), sizeOf t ≤ n → P t := by
    intro n
    induction n with
    | zero =>
      intro t ht
      exact ind t (fun c hc => absurd (Nat.lt_of_lt_of_le hc ht) (Nat.not_lt_zero _))
    | succ n ihn =>
      intro t ht
      exact ind t (fun c hc => ihn c (by omega))
  intro t
  exact H (sizeOf t) t le_rfl

/-- A member of a node's child list is smaller than the node. -/
theorem SNode.sizeOf_lt_of_mem_children {s u : Option String} {cs : List SNode}
    {c : SNode} (hc : c ∈ cs) : sizeOf c < sizeOf (SNode.mk s u (some cs)) := by
  have h := List.sizeOf_lt_of_mem hc
  simp only [SNode.mk.sizeOf_spec, Option.some.sizeOf_spec]
  omega

/-! ## C1: tolerant normalization (`parse_llm_json_response`) -/

/-- C1 (counterexample): the claim says every unparseable input degrades to
a single placeholder record so that the caller always receives a non-empty
sequence, and in particular that `""` yields a non-empty sequence
containing a placeholder.  On the code, `""` fails the strict parse, its
line fallback filters out the blank line, and the result is the empty list
— both from `parse_llm_json_response` and after the `isinstance(..., list)`
placeholder check of `expand_node` (an empty list is a list, so no
placeholder is substituted). -/
theorem parse_llm_empty_counterexample :
    parse_llm_json_response "" true = .arr [] ∧
    expand_node_substeps "" = .arr [] ∧
    ¬ ∃ l, parse_llm_json_response "" true = .arr l ∧ l ≠ [] := by
  refine ⟨rfl, rfl, ?_⟩
  rintro ⟨l, hl, hne⟩
  rw [show parse_llm_json_response "" true = .arr [] from rfl] at hl
  exact hne (by injection hl.symm)

/-- C1 (amended): `parse_llm_json_response` is total — a strict-parse
failure is caught and answered with the per-line fallback, whose records
are all well-typed step objects — but the fallback may be empty (input `""`
yields `[]`, with no placeholder substituted even by `expand_node`), and
non-JSON text yields the stripped lines wrapped as records rather than a
placeholder; `expand_node`'s substep normalization always produces a list. -/
theorem parse_llm_fallback_shape :
    (∀ (s : String) (ic : Bool),
        json_loads (clean_llm_json_response s) = none →
        ∃ l, parse_llm_json_response s ic = .arr l ∧
          ∀ r ∈ l, ∃ t : String,
            r = if ic then Json.obj [("step", .str t), ("children", .arr [])]
                else Json.obj [("step", .str t)]) ∧
    parse_llm_json_response "" true = .arr [] ∧
    parse_llm_json_response "" false = .arr [] ∧
    expand_node_substeps "" = .arr [] ∧
    parse_llm_json_response "not json at all" true =
      .arr [.obj [("step", .str "not json at all"), ("children", .arr [])]] ∧
    (∀ s : String, ∃ l, expand_node_substeps s = .arr l) := by
  refine ⟨?_, rfl, rfl, rfl, rfl, ?_⟩
  · intro s ic h
    refine ⟨fallbackRecords (clean_llm_json_response s) ic, ?_, ?_⟩
    · simp only [parse_llm_json_response, h]
    · intro r hr
      rcases List.mem_filterMap.mp hr with ⟨line, _, hline⟩
      by_cases hc : pyStrip line ≠ [] && !startsWithHash (pyStrip line)
      · rw [if_pos hc] at hline
        refine ⟨⟨pyStrip line⟩, ?_⟩
        cases ic <;> simp_all [fallbackRecord]
      · rw [if_neg hc] at hline
        exact absurd hline (by simp)
  · intro s
    unfold expand_node_substeps
    cases h : parse_llm_json_response s true with
    | arr l => exact ⟨l, rfl⟩
    | null => exact ⟨[placeholderRecord], rfl⟩
    | bool b => exact ⟨[placeholderRecord], rfl⟩
    | num n => exact ⟨[placeholderRecord], rfl⟩
    | str t => exact ⟨[placeholderRecord], rfl⟩
    | obj m => exact ⟨[placeholderRecord], rfl⟩

/-- C1 (witness): the amended theorem applied to the concrete unparseable
input `"not json at all"`. -/
theorem parse_llm_fallback_shape_witness :
    ∃ l, parse_llm_json_response "not json at all" true = .arr l ∧
      ∀ r ∈ l, ∃ t : String,
        r = if true then Json.obj [("step", .str t), ("children", .arr [])]
            else Json.obj [("step", .str t)] :=
  parse_llm_fallback_shape.1 "not json at all" true (by rfl)

/-! ## C2 and C3: path replacement (`update_tree_at_path`) -/

/-- Setting the `children` field yields the set value. -/
theorem SNode.children_withChildren (t : SNode) (c : Option (List SNode)) :
    (t.withChildren c).children = c := by
  cases t
  rfl

/-- Setting the `children` field keeps the `step` field. -/
theorem SNode.step_withChildren (t : SNode) (c : Option (List SNode)) :
    (t.withChildren c).step = t.step := by
  cases t
  rfl

/-- Setting the `children` field keeps the `uuid` field. -/
theorem SNode.uuid_withChildren (t : SNode) (c : Option (List SNode)) :
    (t.withChildren c).uuid = t.uuid := by
  cases t
  rfl

/-- A bounds-checked Python index resolves below the length. -/
theorem pyNat_lt {len : Nat} {i : Int} (h1 : ¬((len : Int) ≤ i)) (h2 : ¬(i < -(len : Int))) :
    pyNat len i < len := by
  unfold pyNat
  split <;> omega

/-- Replacing a bounds-checked position and reading it back with a default
yields the new element. -/
theorem getD_set_self {α : Type} {cs : List α} {k : Nat} (h : k < cs.length) (x d : α) :
    (cs.set k x).getD k d = x := by
  rw [List.getD_eq_getElem _ _ (by simpa using h)]
  simp

/-- Unfolding step of `findGo` at an in-bounds integer index. -/
theorem findGo_step {s u : Option String} {cs : List SNode} {i : Int}
    (hlen : ¬((cs.length : Int) ≤ i)) (hneg : ¬(i < -(cs.length : Int)))
    (rest acc : List PathElem) :
    findGo (.mk s u (some cs)) (.int i :: rest) acc =
      findGo (cs.getD (pyNat cs.length i) dfltNode) rest (acc ++ [.int i]) := by
  simp only [findGo, SNode.children]
  rw [if_neg hlen, if_neg hneg]

/-- Unfolding step of `updateGo` at the last path element, in bounds. -/
theorem updateGo_last {s u : Option String} {cs : List SNode} {i : Int} (N : SNode)
    (hlen : ¬((cs.length : Int) ≤ i)) (hneg : ¬(i < -(cs.length : Int))) :
    updateGo (.mk s u (some cs)) [.int i] N =
      .ok (.mk s u (some (cs.set (pyNat cs.length i) N))) := by
  simp only [updateGo, SNode.children]
  rw [if_neg hlen, if_neg hneg]
  rfl

/-- Unfolding step of `updateGo` at an intermediate in-bounds index whose
recursive update succeeded. -/
theorem updateGo_descend_ok {s u : Option String} {cs : List SNode} {i : Int}
    {N c2 : SNode} {r : PathElem} {rs : List PathElem}
    (hlen : ¬((cs.length : Int) ≤ i)) (hneg : ¬(i < -(cs.length : Int)))
    (hu : updateGo (cs.getD (pyNat cs.length i) dfltNode) (r :: rs) N = .ok c2) :
    updateGo (.mk s u (some cs)) (.int i :: r :: rs) N =
      .ok (.mk s u (some (cs.set (pyNat cs.length i) c2))) := by
  simp only [updateGo, SNode.children]
  rw [if_neg hlen, if_neg hneg, hu]
  rfl

/-- Unfolding step of `updateGo` at an intermediate in-bounds index whose
recursive update reported an invalid path. -/
theorem updateGo_descend_invalid {s u : Option String} {cs : List SNode} {i : Int}
    {N : SNode} {r : PathElem} {rs : List PathElem}
    (hlen : ¬((cs.length : Int) ≤ i)) (hneg : ¬(i < -(cs.length : Int)))
    (hu : updateGo (cs.getD (pyNat cs.length i) dfltNode) (r :: rs) N = .invalid) :
    updateGo (.mk s u (some cs)) (.int i :: r :: rs) N = .invalid := by
  simp only [updateGo, SNode.children]
  rw [if_neg hlen, if_neg hneg, hu]

/-- The walk `findGo` reports the realized path as the accumulator extended
by the whole requested path. -/
theorem findGo_found_path :
    ∀ (path : List PathElem) (cur n : SNode) (acc rp : List PathElem),
      findGo cur path acc = .found n rp → rp = acc ++ path := by
  intro path
  induction path with
  | nil =>
    intro cur n acc rp h
    simp only [findGo] at h
    injection h with _ h2
    simp [h2.symm]
  | cons e rest ih =>
    intro cur n acc rp h
    cases e with
    | nonInt => simp [findGo] at h
    | int i =>
      cases cur with
      | mk s u c =>
        cases c with
        | none => simp [findGo, SNode.children] at h
        | some cs =>
          by_cases hlen : (cs.length : Int) ≤ i
          · simp only [findGo, SNode.children, if_pos hlen] at h
            cases h
          · by_cases hneg : i < -(cs.length : Int)
            · simp only [findGo, SNode.children, if_neg hlen, if_pos hneg] at h
              cases h
            · rw [findGo_step hlen hneg] at h
              have := ih _ _ _ _ h
              simp [this]

/-- Replacing the node at a locatable non-empty path and walking the same
path again reaches exactly the replacement. -/
theorem findGo_update (N : SNode) :
    ∀ (path : List PathElem) (cur n : SNode) (acc rp : List PathElem),
      findGo cur path acc = .found n rp → path ≠ [] →
      ∃ cur2, updateGo cur path N = .ok cur2 ∧
        findGo cur2 path acc = .found N (acc ++ path) := by
  intro path
  induction path with
  | nil => exact fun cur n acc rp _ hne => absurd rfl hne
  | cons e rest ih =>
    intro cur n acc rp h _
    cases e with
    | nonInt => simp [findGo] at h
    | int i =>
      cases cur with
      | mk s u c =>
        cases c with
        | none => simp [findGo, SNode.children] at h
        | some cs =>
          by_cases hlen : (cs.length : Int) ≤ i
          · simp only [findGo, SNode.children, if_pos hlen] at h
            cases h
          · by_cases hneg : i < -(cs.length : Int)
            · simp only [findGo, SNode.children, if_neg hlen, if_pos hneg] at h
              cases h
            · rw [findGo_step hlen hneg] at h
              have hklt : pyNat cs.length i < cs.length := pyNat_lt hlen hneg
              have hlen2 : ¬(((cs.set (pyNat cs.length i) N).length : Int) ≤ i) := by
                rw [List.length_set]; exact hlen
              cases rest with
              | nil =>
                refine ⟨SNode.mk s u (some (cs.set (pyNat cs.length i) N)), ?_, ?_⟩
                · exact updateGo_last N hlen hneg
                · rw [show (.int i :: ([] : List PathElem)) = [PathElem.int i] from rfl,
                    findGo_step (by rw [List.length_set]; exact hlen)
                      (by rw [List.length_set]; exact hneg)]
                  rw [List.length_set, getD_set_self hklt]
                  simp [findGo]
              | cons r rs =>
                rcases ih (cs.getD (pyNat cs.length i) dfltNode) n (acc ++ [.int i]) rp h
                  (by simp) with ⟨cur2, hu, hf⟩
                refine ⟨SNode.mk s u (some (cs.set (pyNat cs.length i) cur2)), ?_, ?_⟩
                · exact updateGo_descend_ok hlen hneg hu
                · rw [findGo_step (by rw [List.length_set]; exact hlen)
                      (by rw [List.length_set]; exact hneg)]
                  rw [List.length_set, getD_set_self hklt, hf]
                  simp

/-- C2: for every tree `T`, replacement node `N` and valid non-empty path
`p` (one `find_node_by_path` locates), `update_tree_at_path` succeeds and
locating the same path in its result yields exactly `N`. -/
theorem locate_replaceAt_same_path (T N n : SNode) (p rp : List PathElem)
    (hne : p ≠ []) (hfound : find_node_by_path T p = .found n rp) :
    ∃ T2, update_tree_at_path T p N = .ok T2 ∧
      find_node_by_path T2 p = .found N p := by
  rcases findGo_update N p T n [] rp hfound hne with ⟨T2, hu, hf⟩
  refine ⟨T2, ?_, ?_⟩
  · cases p with
    | nil => exact absurd rfl hne
    | cons e es => simp only [update_tree_at_path, hu]
  · simpa [find_node_by_path] using hf

/-- C2 (witness): replacing the first child of a two-child root and
locating path `[0]` again yields the replacement. -/
theorem locate_replaceAt_same_path_witness :
    ∃ T2, update_tree_at_path
        (.mk (some "r") none (some [.mk (some "a") none none, .mk (some "b") none none]))
        [.int 0] dfltNode = .ok T2 ∧
      find_node_by_path T2 [.int 0] = .found dfltNode [.int 0] :=
  locate_replaceAt_same_path _ dfltNode (.mk (some "a") none none) [.int 0] [.int 0]
    (by simp) (by rfl)

/-- A path of integer elements on which `findGo` reports not-found (a
missing `children` key or an index at or above `len(children)`) makes
`updateGo` report the path invalid. -/
theorem findGo_notFound_updateGo (N : SNode) :
    ∀ (p : List Int) (cur : SNode) (acc : List PathElem),
      findGo cur (p.map .int) acc = .notFound →
      updateGo cur (p.map .int) N = .invalid := by
  intro p
  induction p with
  | nil => intro cur acc h; simp [findGo] at h
  | cons i rest ih =>
    intro cur acc h
    cases cur with
    | mk s u c =>
      cases c with
      | none => simp [updateGo, SNode.children]
      | some cs =>
        by_cases hlen : (cs.length : Int) ≤ i
        · simp only [List.map_cons, updateGo, SNode.children, if_pos hlen]
        · by_cases hneg : i < -(cs.length : Int)
          · rw [List.map_cons] at h
            simp only [findGo, SNode.children, if_neg hlen, if_pos hneg] at h
            cases h
          · rw [List.map_cons, findGo_step hlen hneg] at h
            cases rest with
            | nil => simp [findGo] at h
            | cons r rs =>
              have := ih (cs.getD (pyNat cs.length i) dfltNode) (acc ++ [.int i]) h
              rw [List.map_cons] at this
              rw [List.map_cons]
              exact updateGo_descend_invalid hlen hneg this

/-- C3: an invalid integer path — one `find_node_by_path` fails on because
a step lacks a `children` key or an index is out of bounds — makes
`update_tree_at_path` return the original tree unchanged (`.ok T` is
literally the input tree): a silent no-op, not an error.  The original is
never modified: the source mutates only its deep copy, which value
semantics renders as pure reconstruction. -/
theorem replaceAt_invalid_path_noop (T N : SNode) (p : List Int)
    (hinv : find_node_by_path T (p.map .int) = .notFound) :
    update_tree_at_path T (p.map .int) N = .ok T := by
  cases p with
  | nil => simp [find_node_by_path, findGo] at hinv
  | cons i rest =>
    have := findGo_notFound_updateGo N (i :: rest) T [] hinv
    simp only [List.map_cons] at this ⊢
    simp only [update_tree_at_path, this]

/-- C3 (witness): updating the out-of-bounds path `[5]` of a one-child
root returns the original tree. -/
theorem replaceAt_invalid_path_noop_witness :
    update_tree_at_path (.mk (some "r") none (some [.mk (some "a") none none]))
      (([5] : List Int).map .int) dfltNode =
      .ok (.mk (some "r") none (some [.mk (some "a") none none])) :=
  replaceAt_invalid_path_noop _ dfltNode [5] (by rfl)

/-! ## C4 and C5: node expansion (`expand_node`) -/

/-- C4: the expansion merge rule.  When `replace_existing` is true, or the
node has no `children` key, or its children are empty, the generated
substeps become the whole `children`; otherwise they are appended after the
existing children, order preserved and without de-duplication.  In
particular children `[A, B]` expanded with `[C, D]` yield `[A, B, C, D]`
under append mode and `[C, D]` under replace mode. -/
theorem expand_merge_rule :
    (∀ (node : SNode) (substeps : List SNode) (rep : Bool),
        rep = true ∨ node.children = none ∨ node.children = some [] →
        ((expand_node node substeps rep).2).children = some substeps) ∧
    (∀ (node : SNode) (substeps cs : List SNode),
        node.children = some cs → cs ≠ [] →
        ((expand_node node substeps false).2).children = some (cs ++ substeps)) ∧
    (∀ (A B C D : SNode) (s u : Option String),
        ((expand_node (.mk s u (some [A, B])) [C, D] false).2).children =
          some [A, B, C, D] ∧
        ((expand_node (.mk s u (some [A, B])) [C, D] true).2).children =
          some [C, D]) := by
  refine ⟨?_, ?_, ?_⟩
  · intro node substeps rep h
    cases node with
    | mk s u c =>
      simp only [SNode.children] at h
      rcases h with h | h | h
      · subst h
        cases c <;> simp [expand_node, SNode.children, SNode.withChildren]
      · subst h
        cases rep <;> simp [expand_node, SNode.children, SNode.withChildren]
      · subst h
        cases rep <;> simp [expand_node, SNode.children, SNode.withChildren]
  · intro node substeps cs hc hne
    cases node with
    | mk s u c =>
      simp only [SNode.children] at hc
      subst hc
      cases cs with
      | nil => exact absurd rfl hne
      | cons a as => simp [expand_node, SNode.children, SNode.withChildren]
  · intro A B C D s u
    exact ⟨rfl, rfl⟩

/-- C4 (witness): a node with empty children under append mode receives
exactly the generated substeps. -/
theorem expand_merge_rule_witness :
    ((expand_node (.mk (some "n") none (some [])) [dfltNode] false).2).children =
      some [dfltNode] :=
  expand_merge_rule.1 _ [dfltNode] false (Or.inr (Or.inr rfl))

/-- C5 (counterexample): the claim says expansion never mutates the input
node instance, but src/expand-node.py lines 60-61 execute
`node["children"] = []` when the key is absent: after the call, the
caller's node (the first component of the embedded result) differs from
the node passed in. -/
theorem expand_mutation_counterexample :
    (expand_node (.mk (some "a") (some "u") none) [] true).1 ≠
      .mk (some "a") (some "u") none := by
  intro h
  have h2 := congrArg SNode.children h
  simp [expand_node, SNode.children, SNode.withChildren] at h2

/-- C5 (amended): expansion keeps the node's `step` (label) and `uuid`
(identifier) unchanged and only `children` differs in the returned copy;
and the input instance is left unmodified except that a missing `children`
key is initialized to an empty list — a node that already has a `children`
collection is not mutated at all. -/
theorem expand_frame_amended :
    (∀ (node : SNode) (substeps : List SNode) (rep : Bool),
        ((expand_node node substeps rep).2).step = node.step ∧
        ((expand_node node substeps rep).2).uuid = node.uuid) ∧
    (∀ (node : SNode) (substeps : List SNode) (rep : Bool) (cs : List SNode),
        node.children = some cs → (expand_node node substeps rep).1 = node) ∧
    (∀ (node : SNode) (substeps : List SNode) (rep : Bool),
        node.children = none →
        (expand_node node substeps rep).1 = node.withChildren (some [])) ∧
    (∀ (node : SNode) (substeps : List SNode) (rep : Bool),
        ((expand_node node substeps rep).1).step = node.step ∧
        ((expand_node node substeps rep).1).uuid = node.uuid) := by
  refine ⟨?_, ?_, ?_, ?_⟩
  · intro node substeps rep
    cases node with
    | mk s u c =>
      cases rep <;> cases c with
      | _ =>
        first
        | exact ⟨rfl, rfl⟩
        | (rename_i cs; cases cs <;> exact ⟨rfl, rfl⟩)
  · intro node substeps rep cs hc
    cases node with
    | mk s u c =>
      simp only [SNode.children] at hc
      subst hc
      rfl
  · intro node substeps rep hc
    cases node with
    | mk s u c =>
      simp only [SNode.children] at hc
      subst hc
      rfl
  · intro node substeps rep
    cases node with
    | mk s u c =>
      cases c <;> exact ⟨rfl, rfl⟩

/-- C5 (witness): a node that already has a (here empty) `children`
collection is returned unmutated. -/
theorem expand_frame_amended_witness :
    (expand_node (.mk (some "a") (some "u") (some [])) [dfltNode] false).1 =
      .mk (some "a") (some "u") (some []) :=
  expand_frame_amended.2.1 _ [dfltNode] false [] rfl

/-! ## C7: text search is the pre-order first match -/

/-- The child loop of the text search agrees with the first match over the
concatenated pre-order enumerations of the children, given the same for
each child. -/
theorem findTextInChildren_preorder (target : String) :
    ∀ (cs : List SNode),
      (∀ x ∈ cs, ∀ path : List Int, find_node_by_step_text x target path =
        (preorder x path).find? (stepMatches target)) →
      ∀ (path : List Int) (i : Nat),
        findTextInChildren cs target path i =
          (preorderChildren cs path i).find? (stepMatches target) := by
  intro cs
  induction cs with
  | nil => intro _ _ _; rfl
  | cons child rest ih =>
    intro hall path i
    have hchild := hall child (by simp) (path ++ [(i : Int)])
    simp only [findTextInChildren, preorderChildren, List.find?_append, hchild]
    cases hfind : (preorder child (path ++ [(i : Int)])).find? (stepMatches target) with
    | some r => simp
    | none =>
      simp only [Option.none_or]
      exact ih (fun x hx => hall x (by simp [hx])) path (i + 1)

/-- C7: `find_node_by_step_text` equals the first element of the pre-order
enumeration (parent before children, children left to right) whose label
equals the target exactly — with its path — and reports not-found when no
node of the enumeration matches.  Determinism across repeated calls is
immediate since the function is pure. -/
theorem find_by_step_text_preorder :
    (∀ (tree : SNode) (target : String) (path : List Int),
        find_node_by_step_text tree target path =
          (preorder tree path).find? (stepMatches target)) ∧
    (∀ (tree : SNode) (target : String),
        (∀ e ∈ preorder tree [], ¬e.1.step = some target) →
        find_node_by_step_text tree target [] = none) := by
  have main : ∀ (tree : SNode) (target : String) (path : List Int),
      find_node_by_step_text tree target path =
        (preorder tree path).find? (stepMatches target) := by
    intro tree
    induction tree using SNode.strongInduction with
    | ind t iht =>
      intro target path
      cases t with
      | mk s u c =>
        cases c with
        | none =>
          simp only [preorder]
          by_cases hs : s = some target
          · rw [List.find?_cons_of_pos _ (by simp [stepMatches, SNode.step, hs])]
            simp [find_node_by_step_text, hs]
          · rw [List.find?_cons_of_neg _ (by simp [stepMatches, SNode.step, hs])]
            simp [find_node_by_step_text, hs]
        | some cs =>
          simp only [preorder]
          by_cases hs : s = some target
          · rw [List.find?_cons_of_pos _ (by simp [stepMatches, SNode.step, hs])]
            simp [find_node_by_step_text, hs]
          · rw [List.find?_cons_of_neg _ (by simp [stepMatches, SNode.step, hs])]
            rw [show find_node_by_step_text (.mk s u (some cs)) target path =
                findTextInChildren cs target path 0 by
              simp [find_node_by_step_text, hs]]
            exact findTextInChildren_preorder target cs
              (fun x hx => iht x (SNode.sizeOf_lt_of_mem_children hx) target) path 0
  refine ⟨main, ?_⟩
  intro tree target hnone
  rw [main tree target []]
  exact List.find?_eq_none.mpr
    (fun e he => by simpa [stepMatches] using hnone e he)

/-- C7 (witness): matching is case-sensitive and not-found is reported:
a tree whose only label is `"A"` yields nothing for target `"a"`. -/
theorem find_by_step_text_preorder_witness :
    find_node_by_step_text (.mk (some "A") none none) "a" [] = none :=
  find_by_step_text_preorder.2 (.mk (some "A") none none) "a" (by
    intro e he
    simp only [preorder] at he
    rcases List.mem_singleton.mp he with rfl
    simp [SNode.step])

/-! ## C8: directory-name sanitization -/

/-- A character that survives the strip stage and is not in the collapse
class is a word character. -/
theorem keptIsWordChar {c : Char} (h1 : (pyIsWordChar c || isPySpace c || c = '-') = true)
    (h2 : ¬(isSpaceHyphen c = true)) : pyIsWordChar c = true := by
  have hsp : isPySpace c = false := by
    cases h : isPySpace c
    · rfl
    · exact absurd (show isSpaceHyphen c = true by simp [isSpaceHyphen, h]) h2
  have hd : (c = '-' : Bool) = false := by
    cases h : (c = '-' : Bool)
    · rfl
    · exact absurd (show isSpaceHyphen c = true by simp [isSpaceHyphen, h]) h2
  simpa [hsp, hd] using h1

/-- Every character produced by the collapse stage from stripped input is a
word character (either kept from the input or an inserted underscore). -/
theorem collapseGo_wordChar :
    ∀ (l : List Char) (b : Bool),
      (∀ c ∈ l, (pyIsWordChar c || isPySpace c || c = '-') = true) →
      ∀ c ∈ collapseGo b l, pyIsWordChar c = true := by
  intro l
  induction l with
  | nil => intro b _ c hc; simp [collapseGo] at hc
  | cons a rest ih =>
    intro b hall c hc
    have htail : ∀ x ∈ rest, (pyIsWordChar x || isPySpace x || x = '-') = true :=
      fun x hx => hall x (List.mem_cons_of_mem _ hx)
    simp only [collapseGo] at hc
    by_cases ha : isSpaceHyphen a = true
    · rw [if_pos ha] at hc
      cases b with
      | false =>
        rcases List.mem_cons.mp hc with rfl | hc2
        · rfl
        · exact ih true htail c hc2
      | true => exact ih true htail c hc
    · rw [if_neg ha] at hc
      rcases List.mem_cons.mp hc with rfl | hc2
      · exact keptIsWordChar (hall c (List.mem_cons_self _ _)) ha
      · exact ih false htail c hc2

/-- C8: directory-name sanitization.  The label `"Mix & Knead Dough!!"`
sanitizes to `mix_knead_dough`, and its directory name begins with that
prefix; every sanitized name is at most 40 characters of word characters
(letters, digits, underscores — a valid filesystem segment on common
platforms); an empty sanitized label is replaced by the generic `step`
token before the shortened identifier is appended. -/
theorem sanitize_filename_spec :
    sanitize_filename "Mix & Knead Dough!!" = "mix_knead_dough" ∧
    (∀ u : String,
        "mix_knead_dough".data.isPrefixOf (dirNameFor "Mix & Knead Dough!!" u []).data =
          true) ∧
    (∀ name : String, (sanitize_filename name).data.length ≤ 40) ∧
    (∀ (name : String) (c : Char), c ∈ (sanitize_filename name).data →
        pyIsWordChar c = true) ∧
    (∀ u : String, dirNameFor "" u [] = "step_" ++ shortUuid u) := by
  refine ⟨rfl, ?_, ?_, ?_, ?_⟩
  · intro u
    rfl
  · intro name
    exact List.length_take_le _ _
  · intro name c hc
    have hc2 := List.mem_of_mem_take hc
    exact collapseGo_wordChar _ false
      (fun x hx => (List.mem_filter.mp hx).2) c hc2
  · intro u
    rfl

/-- C8 (witness): the sanitize specification applied at a concrete label
and character. -/
theorem sanitize_filename_spec_witness : pyIsWordChar 'a' = true :=
  sanitize_filename_spec.2.2.2.1 "Ab c" 'a' (by decide)

/-! ## C9: negative path indices and the rejection conditions -/

/-- Unfolding step of `updateGo` at an intermediate in-bounds index whose
recursive update raised an exception. -/
theorem updateGo_descend_error {s u : Option String} {cs : List SNode} {i : Int}
    {N : SNode} {r : PathElem} {rs : List PathElem}
    (hlen : ¬((cs.length : Int) ≤ i)) (hneg : ¬(i < -(cs.length : Int)))
    (hu : updateGo (cs.getD (pyNat cs.length i) dfltNode) (r :: rs) N = .error) :
    updateGo (.mk s u (some cs)) (.int i :: r :: rs) N = .error := by
  simp only [updateGo, SNode.children]
  rw [if_neg hlen, if_neg hneg, hu]

/-- The walk `findGo` answers not-found exactly on the paths described by
`Rejects`. -/
theorem findGo_notFound_iff :
    ∀ (path : List PathElem) (tree : SNode) (acc : List PathElem),
      findGo tree path acc = .notFound ↔ Rejects tree path := by
  intro path
  induction path with
  | nil =>
    intro tree acc
    constructor
    · intro h
      exact absurd h (by simp [findGo])
    · intro h
      cases h
  | cons e rest ih =>
    intro tree acc
    cases e with
    | nonInt =>
      exact ⟨fun _ => Rejects.nonIntElem tree rest, fun _ => rfl⟩
    | int i =>
      cases tree with
      | mk s u c =>
        cases c with
        | none =>
          exact ⟨fun _ => Rejects.missingChildren s u i rest, fun _ => rfl⟩
        | some cs =>
          by_cases hlen : (cs.length : Int) ≤ i
          · refine ⟨fun _ => Rejects.indexTooLarge s u cs i rest hlen, fun _ => ?_⟩
            simp only [findGo, SNode.children]
            rw [if_pos hlen]
          · by_cases hneg : i < -(cs.length : Int)
            · constructor
              · intro h
                simp only [findGo, SNode.children, if_neg hlen, if_pos hneg] at h
                cases h
              · intro h
                cases h with
                | indexTooLarge _ _ _ _ _ h2 => exact absurd h2 hlen
                | descend _ _ _ _ _ _ h2 => exact absurd hneg h2
            · rw [findGo_step hlen hneg]
              constructor
              · intro h
                exact Rejects.descend s u cs i rest hlen hneg ((ih _ _).mp h)
              · intro h
                cases h with
                | indexTooLarge _ _ _ _ _ h2 => exact absurd h2 hlen
                | descend _ _ _ _ _ _ _ hr => exact (ih _ _).mpr hr

/-- On integer paths, an invalid outcome of the update walk forces the
lookup walk to report not-found (the two functions check the same
conditions). -/
theorem updateGo_invalid_findGo (N : SNode) :
    ∀ (p : List Int) (cur : SNode) (acc : List PathElem),
      updateGo cur (p.map .int) N = .invalid →
      findGo cur (p.map .int) acc = .notFound := by
  intro p
  induction p with
  | nil =>
    intro cur acc h
    simp [updateGo] at h
  | cons i rest ih =>
    intro cur acc h
    cases cur with
    | mk s u c =>
      cases c with
      | none =>
        simp only [List.map_cons, findGo, SNode.children]
      | some cs =>
        by_cases hlen : (cs.length : Int) ≤ i
        · rw [List.map_cons]
          simp only [findGo, SNode.children]
          rw [if_pos hlen]
        · by_cases hneg : i < -(cs.length : Int)
          · rw [List.map_cons] at h
            simp only [updateGo, SNode.children, if_neg hlen, if_pos hneg] at h
            cases h
          · rw [List.map_cons] at h
            cases rest with
            | nil =>
              rw [show List.map PathElem.int [] = [] from rfl] at h
              rw [updateGo_last N hlen hneg] at h
              cases h
            | cons r rs =>
              rw [List.map_cons] at h
              cases hx : updateGo (cs.getD (pyNat cs.length i) dfltNode)
                  (.int r :: List.map PathElem.int rs) N with
              | ok c2 =>
                rw [updateGo_descend_ok hlen hneg hx] at h
                cases h
              | invalid =>
                have := ih (cs.getD (pyNat cs.length i) dfltNode) (acc ++ [.int i])
                  (by rw [List.map_cons]; exact hx)
                rw [List.map_cons, findGo_step hlen hneg]
                exact this
              | error =>
                rw [updateGo_descend_error hlen hneg hx] at h
                cases h

/-- C9: both path functions accept in-range negative integer indices and
resolve them from the end of the children list (`-1` is the last child:
take `k = len - 1`); `find_node_by_path` rejects a path as not-found
exactly for the `Rejects` conditions (non-integer element, missing
`children` key, or index at or above `len(children)`), and on integer
paths `update_tree_at_path`'s invalid-path outcome coincides with
`find_node_by_path`'s not-found. -/
theorem path_negative_index_semantics :
    (∀ (s u : Option String) (cs : List SNode) (k : Nat), k < cs.length →
        find_node_by_path (.mk s u (some cs)) [.int ((k : Int) - cs.length)] =
          .found (cs.getD k dfltNode) [.int ((k : Int) - cs.length)]) ∧
    (∀ (s u : Option String) (cs : List SNode) (k : Nat) (N : SNode), k < cs.length →
        update_tree_at_path (.mk s u (some cs)) [.int ((k : Int) - cs.length)] N =
          .ok (.mk s u (some (cs.set k N)))) ∧
    (∀ (tree : SNode) (path : List PathElem),
        find_node_by_path tree path = .notFound ↔ Rejects tree path) ∧
    (∀ (tree : SNode) (p : List Int) (N : SNode),
        updateGo tree (p.map .int) N = .invalid ↔
          find_node_by_path tree (p.map .int) = .notFound) := by
  have hbounds : ∀ (cs : List SNode) (k : Nat), k < cs.length →
      ¬((cs.length : Int) ≤ (k : Int) - cs.length) ∧
        ¬((k : Int) - cs.length < -(cs.length : Int)) ∧
        pyNat cs.length ((k : Int) - cs.length) = k := by
    intro cs k hk
    refine ⟨by omega, by omega, ?_⟩
    unfold pyNat
    split <;> omega
  refine ⟨?_, ?_, fun tree path => findGo_notFound_iff path tree [], ?_⟩
  · intro s u cs k hk
    rcases hbounds cs k hk with ⟨h1, h2, h3⟩
    show findGo _ _ _ = _
    rw [findGo_step h1 h2, h3]
    rfl
  · intro s u cs k N hk
    rcases hbounds cs k hk with ⟨h1, h2, h3⟩
    have hu := @updateGo_last s u cs _ N h1 h2
    rw [h3] at hu
    unfold update_tree_at_path
    rw [hu]
  · intro tree p N
    constructor
    · intro h
      exact updateGo_invalid_findGo N p tree [] h
    · intro h
      cases p with
      | nil => simp [find_node_by_path, findGo] at h
      | cons i rest => exact findGo_notFound_updateGo N (i :: rest) tree [] h

/-- C9 (witness): index `-1` on a two-child node addresses the last child,
for both lookup and replacement. -/
theorem path_negative_index_semantics_witness :
    find_node_by_path
        (.mk (some "r") none (some [.mk (some "a") none none, .mk (some "b") none none]))
        [.int ((1 : Int) - (List.length
          [SNode.mk (some "a") none none, .mk (some "b") none none] : Int))] =
      .found (.mk (some "b") none none)
        [.int ((1 : Int) - (List.length
          [SNode.mk (some "a") none none, .mk (some "b") none none] : Int))] :=
  path_negative_index_semantics.1 (some "r") none
    [.mk (some "a") none none, .mk (some "b") none none] 1 (by decide)

/-! ## C10: serialization assigns missing identifiers in place -/

/-- The ensured uuid keeps an existing identifier. -/
theorem ensureUuid_some (u0 : String) (ctr : Nat) (gen : Nat → String) :
    ensureUuid (some u0) ctr gen = (u0, ctr) := rfl

/-- The ensured uuid of an identifier-less node is freshly generated. -/
theorem ensureUuid_none (ctr : Nat) (gen : Nat → String) :
    ensureUuid none ctr gen = (gen ctr, ctr + 1) := rfl

/-- The two uuid facts `FillsIds` needs about the ensured uuid. -/
theorem ensureUuid_spec (ou : Option String) (ctr : Nat) (gen : Nat → String) :
    (∀ u0, ou = some u0 → (ensureUuid ou ctr gen).1 = u0) ∧
      (ou = none → ∃ k, (ensureUuid ou ctr gen).1 = gen k) := by
  cases ou with
  | some u0 =>
    refine ⟨?_, ?_⟩
    · intro u1 h
      exact Option.some.inj h
    · intro h
      cases h
  | none =>
    refine ⟨?_, ?_⟩
    · intro u1 h
      cases h
    · intro _
      exact ⟨ctr, rfl⟩

/-- What `saveCore` returns as the post-call state of the node: the same
`step`, the ensured uuid, and children filled pointwise. -/
theorem saveCore_fills (gen : Nat → String) :
    ∀ (t : SNode) (u : String) (ctr : Nat) (t2 : SNode) (d : Dir) (ctr2 : Nat),
      saveCore t u ctr gen = some (t2, d, ctr2) →
      (t.children = none → t2 = .mk t.step (some u) none) ∧
      (∀ cs, t.children = some cs → ∃ cs2, t2 = .mk t.step (some u) (some cs2) ∧
        List.Forall₂ (FillsIds gen) cs cs2) := by
  have listStep : ∀ (cs : List SNode),
      (∀ c ∈ cs, ∀ (u : String) (ctr : Nat) (t2 : SNode) (d : Dir) (ctr2 : Nat),
        saveCore c u ctr gen = some (t2, d, ctr2) →
        (c.children = none → t2 = .mk c.step (some u) none) ∧
        (∀ gs, c.children = some gs → ∃ gs2, t2 = .mk c.step (some u) (some gs2) ∧
          List.Forall₂ (FillsIds gen) gs gs2)) →
      ∀ (ctr : Nat) (taken : List String) (cs2 : List SNode)
        (entries : List (String × Dir)) (ctr2 : Nat),
        saveChildren cs ctr gen taken = some (cs2, entries, ctr2) →
        List.Forall₂ (FillsIds gen) cs cs2 := by
    intro cs
    induction cs with
    | nil =>
      intro _ ctr taken cs2 entries ctr2 h
      simp only [saveChildren] at h
      injection h with h
      injection h with h1 h
      subst h1
      exact List.Forall₂.nil
    | cons child rest ih =>
      intro hall ctr taken cs2 entries ctr2 h
      simp only [saveChildren] at h
      cases hst : child.step with
      | none => rw [hst] at h; cases h
      | some cstep =>
        rw [hst] at h
        rw [Option.bind_eq_some] at h
        obtain ⟨r, hr1, hr2⟩ := h
        obtain ⟨child2, cdir, ctrA⟩ := r
        have hr2b : (saveChildren rest ctrA gen
            (dirNameFor cstep (ensureUuid child.uuid ctr gen).1 taken :: taken)).map
              (fun r2 => (child2 :: r2.1,
                (dirNameFor cstep (ensureUuid child.uuid ctr gen).1 taken, cdir) :: r2.2.1,
                r2.2.2)) = some (cs2, entries, ctr2) := hr2
        rw [Option.map_eq_some'] at hr2b
        obtain ⟨r2, hr21, hr22⟩ := hr2b
        obtain ⟨rest2, entriesR, ctrB⟩ := r2
        have hr22b : (child2 :: rest2,
            (dirNameFor cstep (ensureUuid child.uuid ctr gen).1 taken, cdir) :: entriesR,
            ctrB) = (cs2, entries, ctr2) := hr22
        injection hr22b with hA hr22c
        subst hA
        refine List.Forall₂.cons ?_
          (ih (fun c hc => hall c (List.mem_cons_of_mem _ hc)) ctrA _ rest2 entriesR ctrB hr21)
        have hchild := hall child (List.mem_cons_self _ _)
          (ensureUuid child.uuid ctr gen).1 (ensureUuid child.uuid ctr gen).2
          child2 cdir ctrA hr1
        rcases ensureUuid_spec child.uuid ctr gen with ⟨hpu1, hpu2⟩
        cases child with
        | mk cst cu0 cch =>
          simp only [SNode.step] at hst
          subst hst
          simp only [SNode.uuid] at hpu1 hpu2
          cases cch with
          | none =>
            rw [hchild.1 (by rfl)]
            exact FillsIds.noChildren (some cstep) cu0 _ hpu1 hpu2
          | some gs =>
            rcases hchild.2 gs (by rfl) with ⟨gs2, hEq, hF⟩
            rw [hEq]
            exact FillsIds.withChildren (some cstep) cu0 _ gs gs2 hpu1 hpu2 hF
  intro t
  induction t using SNode.strongInduction with
  | ind t iht =>
    intro u ctr t2 d ctr2 h
    cases t with
    | mk st ou c =>
      cases st with
      | none => simp [saveCore] at h
      | some stepText =>
        cases c with
        | none =>
          simp only [saveCore] at h
          injection h with h
          injection h with h1 h
          subst h1
          exact ⟨fun _ => rfl, fun cs hcs => by simp [SNode.children] at hcs⟩
        | some cs =>
          simp only [saveCore] at h
          rw [Option.map_eq_some'] at h
          obtain ⟨r, hr1, hr2⟩ := h
          obtain ⟨cs2, entries, ctr3⟩ := r
          have hr2b : (SNode.mk (some stepText) (some u) (some cs2),
              Dir.mk stepText u entries, ctr3) = (t2, d, ctr2) := hr2
          injection hr2b with hA hr2c
          subst hA
          refine ⟨fun hnone => by simp [SNode.children] at hnone, fun cs2' hcs' => ?_⟩
          have hcseq : cs2' = cs := by
            simp only [SNode.children] at hcs'
            exact (Option.some.inj hcs').symm
          rw [hcseq]
          exact ⟨cs2, rfl, listStep cs
            (fun c hc => iht c (SNode.sizeOf_lt_of_mem_children hc))
            ctr [] cs2 entries ctr3 hr1⟩

/-- C10: `save_tree_to_filesystem` mutates its input tree in place — every
node (root and descendants) that lacks a `uuid` is assigned a freshly
generated one on the node object itself before its metadata is written, so
after serialization the caller's whole tree carries identifiers; existing
identifiers, every `step`, and the children shape are untouched. -/
theorem save_assigns_identifiers (tree : SNode) (ctr : Nat) (gen : Nat → String)
    (t2 : SNode) (d : Dir) (ctr2 : Nat)
    (h : save_tree_to_filesystem tree ctr gen = some (t2, d, ctr2)) :
    FillsIds gen tree t2 := by
  unfold save_tree_to_filesystem at h
  have hc := saveCore_fills gen tree (ensureUuid tree.uuid ctr gen).1
    (ensureUuid tree.uuid ctr gen).2 t2 d ctr2 h
  rcases ensureUuid_spec tree.uuid ctr gen with ⟨hpu1, hpu2⟩
  cases tree with
  | mk st ou c =>
    simp only [SNode.uuid] at hpu1 hpu2
    cases c with
    | none =>
      rw [hc.1 (by rfl)]
      exact FillsIds.noChildren st ou _ hpu1 hpu2
    | some cs =>
      rcases hc.2 cs (by rfl) with ⟨cs2, hEq, hF⟩
      rw [hEq]
      exact FillsIds.withChildren st ou _ cs cs2 hpu1 hpu2 hF

/-- C10 (witness): a two-node tree with no identifiers leaves
serialization with generated identifiers on both nodes. -/
theorem save_assigns_identifiers_witness :
    FillsIds (fun _ => "g") (.mk (some "a") none (some [.mk (some "b") none none]))
      (.mk (some "a") (some "g") (some [.mk (some "b") (some "g") none])) :=
  save_assigns_identifiers _ 0 (fun _ => "g") _ (.mk "a" "g" [("b_g", .mk "b" "g" [])]) 2
    (by rfl)

/-! ## C6: directory round trip -/

/-- Strict lexicographic order implies the non-strict one. -/
theorem charListLe_of_lt : ∀ a b : List Char, charListLt a b = true → charListLe a b = true := by
  intro a
  induction a with
  | nil => intro b _; cases b <;> rfl
  | cons x xs ih =>
    intro b h
    cases b with
    | nil => simp [charListLt] at h
    | cons y ys =>
      simp only [charListLt] at h
      simp only [charListLe]
      by_cases hxy : x = y
      · rw [if_pos hxy] at h ⊢
        exact ih ys h
      · rw [if_neg hxy] at h ⊢
        exact h

/-- The strict lexicographic order is irreflexive. -/
theorem charListLt_irrefl : ∀ a : List Char, charListLt a a = false := by
  intro a
  induction a with
  | nil => rfl
  | cons x xs ih => simp [charListLt, ih]

/-- The strict lexicographic order is transitive. -/
theorem charListLt_trans : ∀ a b c : List Char,
    charListLt a b = true → charListLt b c = true → charListLt a c = true := by
  intro a
  induction a with
  | nil =>
    intro b c hab hbc
    cases b with
    | nil => simp [charListLt] at hab
    | cons y ys =>
      cases c with
      | nil => simp [charListLt] at hbc
      | cons z zs => rfl
  | cons x xs ih =>
    intro b c hab hbc
    cases b with
    | nil => simp [charListLt] at hab
    | cons y ys =>
      cases c with
      | nil => simp [charListLt] at hbc
      | cons z zs =>
        simp only [charListLt] at hab hbc ⊢
        by_cases hxy : x = y
        · subst hxy
          rw [if_pos rfl] at hab
          by_cases hyz : x = z
          · subst hyz
            rw [if_pos rfl] at hbc
            rw [if_pos rfl]
            exact ih ys zs hab hbc
          · rw [if_neg hyz] at hbc
            rw [if_neg hyz]
            exact hbc
        · rw [if_neg hxy] at hab
          by_cases hyz : y = z
          · subst hyz
            rw [if_neg hxy]
            exact hab
          · rw [if_neg hyz] at hbc
            have hxz : x < z := lt_trans (of_decide_eq_true hab) (of_decide_eq_true hbc)
            rw [if_neg (ne_of_lt hxz)]
            exact decide_eq_true hxz

/-- Sorting a listing that is already in non-decreasing name order leaves
it unchanged. -/
theorem sortEntries_of_chain :
    ∀ l : List (String × Dir),
      List.Chain' (fun a b => charListLe a.1.data b.1.data = true) l →
      sortEntries l = l := by
  intro l
  induction l with
  | nil => intro _; rfl
  | cons e rest ih =>
    intro h
    have htail : List.Chain' (fun a b => charListLe a.1.data b.1.data = true) rest := h.tail
    simp only [sortEntries]
    rw [ih htail]
    cases rest with
    | nil => rfl
    | cons f rs =>
      have hef := (List.chain'_cons.mp h).1
      simp only [insertEntry]
      rw [if_pos hef]

/-- Recursive canonicalization maps over the entries, keeping names. -/
theorem sortDirEntries_map :
    ∀ l : List (String × Dir), sortDirEntries l = l.map (fun e => (e.1, sortDir e.2)) := by
  intro l
  induction l with
  | nil => rfl
  | cons e rest ih =>
    obtain ⟨n, d⟩ := e
    simp only [sortDirEntries, List.map_cons]
    rw [ih]

/-- Loading the canonicalized entries recovers the children pointwise. -/
theorem loadRawEntries_of_forall₂ :
    ∀ (entries : List (String × Dir)) (cs : List SNode),
      List.Forall₂ (fun (e : String × Dir) (c : SNode) => loadRaw (sortDir e.2) = c)
        entries cs →
      loadRawEntries (sortDirEntries entries) = cs := by
  intro entries cs h
  induction h with
  | nil => rfl
  | cons h1 h2 ih =>
    rename_i e c es cs'
    obtain ⟨n, d⟩ := e
    simp only [sortDirEntries, loadRawEntries]
    rw [ih]
    simp only [List.cons.injEq]
    exact ⟨h1, trivial⟩

/-- The collision-free directory name, spelled out. -/
theorem dirNameFor_nil (l u : String) :
    dirNameFor l u [] =
      (if sanitize_filename l = "" then "step" else sanitize_filename l) ++ "_" ++
        shortUuid u := by
  simp [dirNameFor]

/-- When the computed name is not among the already-created sibling names,
the collision fallback does not trigger. -/
theorem dirNameFor_of_not_taken {l u : String} {taken : List String}
    (h : dirNameFor l u [] ∉ taken) : dirNameFor l u taken = dirNameFor l u [] := by
  rw [dirNameFor_nil] at h ⊢
  simp only [dirNameFor]
  rw [if_neg h]

/-- The directory name of a well-formed child. -/
theorem childName_mk (st u : String) (ch : Option (List SNode)) :
    childName (.mk (some st) (some u) ch) = dirNameFor st u [] := rfl

/-- A well-formed-sorted node has all three keys present. -/
theorem WFSorted.shape {c : SNode} (h : WFSorted c) :
    ∃ st u gs, c = .mk (some st) (some u) (some gs) := by
  cases h with
  | mk st u gs _ _ => exact ⟨st, u, gs, rfl⟩

/-- The child loop of serialization, on well-formed children with pairwise
strictly increasing directory names none of which was already created:
every child is saved unmutated under its collision-free name, the counter
is unchanged, and each saved entry loads back to its child. -/
theorem saveChildren_roundtrip (gen : Nat → String) :
    ∀ (cs : List SNode) (ctr : Nat) (taken : List String),
      (∀ c ∈ cs, WFSorted c) →
      (∀ c ∈ cs, ∀ (u : String) (ctr' : Nat), c.uuid = some u →
        ∃ d, saveCore c u ctr' gen = some (c, d, ctr') ∧ loadRaw (sortDir d) = c) →
      (∀ c ∈ cs, childName c ∉ taken) →
      List.Pairwise (fun a b => strLtB (childName a) (childName b) = true) cs →
      ∃ entries, saveChildren cs ctr gen taken = some (cs, entries, ctr) ∧
        entries.map Prod.fst = cs.map childName ∧
        List.Forall₂ (fun (e : String × Dir) (c : SNode) => loadRaw (sortDir e.2) = c)
          entries cs := by
  intro cs
  induction cs with
  | nil =>
    intro ctr taken _ _ _ _
    exact ⟨[], rfl, rfl, List.Forall₂.nil⟩
  | cons child rest ih =>
    intro ctr taken hwf hP hmem hpair
    obtain ⟨stc, uc, gs, rfl⟩ := (hwf child (List.mem_cons_self _ _)).shape
    have hname : dirNameFor stc uc taken = childName (.mk (some stc) (some uc) (some gs)) := by
      rw [childName_mk]
      exact dirNameFor_of_not_taken
        (by rw [← childName_mk stc uc (some gs)]; exact hmem _ (List.mem_cons_self _ _))
    obtain ⟨cdir, hsave, hload⟩ := hP _ (List.mem_cons_self _ _) uc ctr rfl
    have hmem2 : ∀ c ∈ rest,
        childName c ∉ childName (.mk (some stc) (some uc) (some gs)) :: taken := by
      intro c hc hin
      rcases List.mem_cons.mp hin with heq | hin2
      · have hlt := (List.pairwise_cons.mp hpair).1 c hc
        rw [heq] at hlt
        have := charListLt_irrefl (childName (.mk (some stc) (some uc) (some gs))).data
        rw [show strLtB (childName (.mk (some stc) (some uc) (some gs)))
            (childName (.mk (some stc) (some uc) (some gs))) =
            charListLt (childName (.mk (some stc) (some uc) (some gs))).data
              (childName (.mk (some stc) (some uc) (some gs))).data from rfl] at hlt
        rw [this] at hlt
        cases hlt
      · exact hmem c (List.mem_cons_of_mem _ hc) hin2
    obtain ⟨entriesR, hsaveR, hnamesR, hFR⟩ := ih ctr
      (childName (.mk (some stc) (some uc) (some gs)) :: taken)
      (fun c hc => hwf c (List.mem_cons_of_mem _ hc))
      (fun c hc => hP c (List.mem_cons_of_mem _ hc))
      hmem2 (List.Pairwise.of_cons hpair)
    refine ⟨(childName (.mk (some stc) (some uc) (some gs)), cdir) :: entriesR, ?_, ?_, ?_⟩
    · simp only [saveChildren, SNode.step, SNode.uuid, ensureUuid_some]
      rw [hname, hsave, Option.some_bind, hsaveR, Option.map_some']
    · simp only [List.map_cons, hnamesR]
    · exact List.Forall₂.cons hload hFR

/-- Serialization of a well-formed tree with recursively sorted sibling
directory names: the tree is returned unmutated, the counter untouched,
and name-ordered deserialization reconstructs the tree exactly. -/
theorem saveCore_roundtrip (gen : Nat → String) :
    ∀ t : SNode, WFSorted t → ∀ (u : String) (ctr : Nat), t.uuid = some u →
      ∃ d, saveCore t u ctr gen = some (t, d, ctr) ∧ loadRaw (sortDir d) = t := by
  intro t
  induction t using SNode.strongInduction with
  | ind t iht =>
    intro hwf u ctr huuid
    cases hwf with
    | mk st u0 cs hall hchain =>
      simp only [SNode.uuid] at huuid
      cases huuid
      have htrans : IsTrans SNode (fun a b => strLtB (childName a) (childName b) = true) :=
        ⟨fun a b c hab hbc => charListLt_trans _ _ _ hab hbc⟩
      have hpair : List.Pairwise (fun a b => strLtB (childName a) (childName b) = true) cs :=
        (@List.chain'_iff_pairwise _ _ htrans cs).mp hchain
      obtain ⟨entries, hsc, hnames, hF⟩ := saveChildren_roundtrip gen cs ctr []
        hall
        (fun c hc u' ctr' hcu =>
          iht c (SNode.sizeOf_lt_of_mem_children hc) (hall c hc) u' ctr' hcu)
        (fun c _ => List.not_mem_nil _)
        hpair
      refine ⟨.mk st u entries, ?_, ?_⟩
      · simp only [saveCore]
        rw [hsc, Option.map_some']
      · have hnames2 : (sortDirEntries entries).map Prod.fst = cs.map childName := by
          rw [sortDirEntries_map, List.map_map]
          exact hnames
        have hchainLe : List.Chain'
            (fun (a b : String × Dir) => charListLe a.1.data b.1.data = true)
            (sortDirEntries entries) := by
          have h1 : List.Chain' (fun x y : String => charListLe x.data y.data = true)
              ((sortDirEntries entries).map Prod.fst) := by
            rw [hnames2, List.chain'_map]
            exact List.Chain'.imp
              (fun a b hab => charListLe_of_lt _ _ hab) hchain
          rw [List.chain'_map] at h1
          exact h1
        simp only [sortDir]
        rw [sortEntries_of_chain _ hchainLe]
        simp only [loadRaw]
        rw [loadRawEntries_of_forall₂ entries cs hF]

/-- C6 (amended): serializing a tree whose nodes all carry `step`, `uuid`
and a `children` list and whose sibling directory names are strictly
ascending at every level, and then deserializing by recursively reading the
metadata files and subdirectories in name order, reconstructs exactly the
original tree (labels, identifiers, and children order all preserved); the
input tree and the generator counter are untouched.  Without the
name-order condition the children order is not preserved (see the
counterexample): the naming scheme encodes no order index, so traversal
order follows directory-name order, not creation order. -/
theorem roundtrip_sorted_names (t : SNode) (ctr : Nat) (gen : Nat → String)
    (hwf : WFSorted t) :
    ∃ d, save_tree_to_filesystem t ctr gen = some (t, d, ctr) ∧
      load_tree_from_filesystem d = t := by
  obtain ⟨st, u, gs, rfl⟩ := hwf.shape
  obtain ⟨d, hs, hl⟩ := saveCore_roundtrip gen _ hwf u ctr rfl
  refine ⟨d, ?_, hl⟩
  unfold save_tree_to_filesystem
  simp only [SNode.uuid, ensureUuid_some]
  exact hs

/-- C6 (witness): a two-child tree whose directory names are already in
ascending order round-trips exactly. -/
theorem roundtrip_sorted_names_witness :
    ∃ d, save_tree_to_filesystem
        (.mk (some "r") (some "u") (some
          [.mk (some "a") (some "1") (some []), .mk (some "b") (some "2") (some [])]))
        0 (fun _ => "x") =
        some (.mk (some "r") (some "u") (some
          [.mk (some "a") (some "1") (some []), .mk (some "b") (some "2") (some [])]),
          d, 0) ∧
      load_tree_from_filesystem d =
        .mk (some "r") (some "u") (some
          [.mk (some "a") (some "1") (some []), .mk (some "b") (some "2") (some [])]) :=
  roundtrip_sorted_names _ 0 (fun _ => "x") (by
    refine WFSorted.mk "r" "u" _ ?_ ?_
    · intro c hc
      rcases List.mem_cons.mp hc with rfl | hc2
      · exact WFSorted.mk "a" "1" [] (fun c hc => by cases hc) List.chain'_nil
      · rcases List.mem_cons.mp hc2 with rfl | hc3
        · exact WFSorted.mk "b" "2" [] (fun c hc => by cases hc) List.chain'_nil
        · cases hc3
    · exact List.chain'_cons.mpr ⟨by decide, List.chain'_singleton _⟩)

/-- C6 (counterexample): the claim requires the round trip to preserve
children order for every tree, with directory traversal order reflecting
the original children order.  The naming scheme `sanitizedlabel_uuid`
records no order index, so a tree whose children's names sort against
their creation order comes back reordered: children `[b, a]` deserialize
as `[a, b]`, which differs from the original. -/
theorem roundtrip_order_counterexample :
    (save_tree_to_filesystem
        (.mk (some "r") (some "u") (some
          [.mk (some "b") (some "1") (some []), .mk (some "a") (some "2") (some [])]))
        0 (fun _ => "x")).map (fun r => load_tree_from_filesystem r.2.1) =
      some (.mk (some "r") (some "u") (some
        [.mk (some "a") (some "2") (some []), .mk (some "b") (some "1") (some [])])) ∧
    SNode.mk (some "r") (some "u") (some
        [.mk (some "a") (some "2") (some []), .mk (some "b") (some "1") (some [])]) ≠
      .mk (some "r") (some "u") (some
        [.mk (some "b") (some "1") (some []), .mk (some "a") (some "2") (some [])]) := by
  refine ⟨rfl, ?_⟩
  intro h
  have h2 := congrArg SNode.children h
  simp only [SNode.children, Option.some.injEq, List.cons.injEq] at h2
  have h3 := congrArg SNode.step h2.1
  simp only [SNode.step, Option.some.injEq] at h3
  exact absurd h3 (by decide)

end Routines

